import Mathlib

/-!
Verification of the fuzzy-matching reconciliation engine of the NYC
government hiring-audit pipeline.

The definitions below are a shallow embedding of the Python source:

* `data_processing/jobs_nyc_posting_processor.py`
  (`create_fuzzy_matching_string`, `calculate_fuzzy_matches_with_payroll`,
  `find_best_match_with_salary`);
* `data_processing/lighthouse_processor.py`
  (`generate_posting_duration_dataset`, `find_best_lighthouse_match`);
* Python's `difflib.SequenceMatcher` ratio (Ratcliff/Obershelp block
  matching), which both processors call for scoring.

Strings are modelled over `Char` lists with ASCII classification,
numbers as `ℚ` (the code's floats carry exact small rationals in every
computation relevant here), absent values (Python `None`) as `Option`,
and a Python `KeyError` as an `Option.none` result of the surrounding
computation.
-/

namespace NycAudit

/-! ### Normalizer

`create_fuzzy_matching_string` (jobs processor, lines 109-127) lowercases
and trims each field, joins with an underscore, deletes characters
matching `[^\w\s]` (so word characters — alphanumerics and the
underscore — and whitespace survive), and replaces each whitespace run
by a single underscore.

`find_best_lighthouse_match` (lighthouse processor, lines 310-313) and the
lighthouse lookup construction (lines 285-288) instead lowercase, strip,
keep only alphanumerics and whitespace (`char.isalnum() or char.isspace()`
— this deletes underscores), and join the whitespace-separated words
with underscores.
-/

/-- Word character of the regex class `\w` (ASCII model): alphanumeric or
underscore. -/
def isWordChar (c : Char) : Bool := c.isAlphanum || c = '_'

/-- Trim leading and trailing whitespace (Python `str.strip`, polars
`str.strip_chars`). -/
def trimWS (l : List Char) : List Char :=
  ((l.dropWhile Char.isWhitespace).reverse.dropWhile Char.isWhitespace).reverse

/-- Replace every maximal whitespace run by one underscore; the flag
records whether the previous character was whitespace. -/
def collapseWSAux : Bool → List Char → List Char
  | _, [] => []
  | prevWS, c :: rest =>
    if c.isWhitespace then
      if prevWS then collapseWSAux true rest else '_' :: collapseWSAux true rest
    else c :: collapseWSAux false rest

/-- Regex replacement of `\s+` by `_` (jobs processor, line 122). -/
def collapseWS (l : List Char) : List Char := collapseWSAux false l

/-- Regex deletion of `[^\w\s]` (jobs processor, line 121). -/
def stripNonWord (l : List Char) : List Char :=
  l.filter (fun c => isWordChar c || c.isWhitespace)

/-- Per-field cleaning of the jobs processor (lines 116-117):
`str.to_lowercase().str.strip_chars()`. -/
def cleanField (s : String) : String :=
  String.mk (trimWS (s.data.map Char.toLower))

/-- The jobs-posting normalized key (`create_fuzzy_matching_string`):
clean both fields, join with `_`, delete `[^\w\s]`, collapse `\s+` to
`_`. -/
def createFuzzyMatchingString (agency business_title : String) : String :=
  String.mk (collapseWS (stripNonWord
    (cleanField agency ++ "_" ++ cleanField business_title).data))

/-- The jobs-posting normalization applied to a single string, i.e. the
pipeline of `create_fuzzy_matching_string` viewed as a function of one
free-text field: lowercase, trim, delete `[^\w\s]`, collapse `\s+` to
`_`. -/
def normalizeKey (s : String) : String :=
  String.mk (collapseWS (stripNonWord (trimWS (s.data.map Char.toLower))))

/-- Split into maximal whitespace-free words (Python `str.split()`); the
accumulator holds the current word reversed. -/
def splitWordsAux : List Char → List Char → List (List Char)
  | [], cur => if cur.isEmpty then [] else [cur.reverse]
  | c :: rest, cur =>
    if c.isWhitespace then
      if cur.isEmpty then splitWordsAux rest []
      else cur.reverse :: splitWordsAux rest []
    else splitWordsAux rest (c :: cur)

/-- Python `str.split()` on whitespace. -/
def splitWords (l : List Char) : List (List Char) := splitWordsAux l []

/-- The lighthouse title normalization (lighthouse processor, lines
285-288 and 310-313): lowercase, strip, keep only alphanumerics and
whitespace, then `'_'.join(clean.split())`. -/
def cleanTitle (s : String) : String :=
  String.mk (List.intercalate ['_']
    (splitWords ((trimWS (s.data.map Char.toLower)).filter
      (fun c => c.isAlphanum || c.isWhitespace))))

/-! Character-level facts used for idempotence of `normalizeKey`. -/

theorem char_toNat_ofNat (n : Nat) (h : n.isValidChar) :
    (Char.ofNat n).toNat = n := by
  simp [Char.ofNat, h, Char.toNat, Char.ofNatAux, UInt32.toNat,
    UInt32.ofNatCore, BitVec.toNat_ofNatLt]

theorem toLower_idempotent (c : Char) : c.toLower.toLower = c.toLower := by
  unfold Char.toLower
  by_cases h : c.toNat ≥ 65 ∧ c.toNat ≤ 90
  · have hv : (c.toNat + 32).isValidChar := by left; omega
    rw [if_pos h, char_toNat_ofNat _ hv, if_neg (by omega)]
  · rw [if_neg h, if_neg h]

theorem mem_collapseWSAux {c : Char} :
    ∀ (l : List Char) (b : Bool), c ∈ collapseWSAux b l →
      c = '_' ∨ (c ∈ l ∧ c.isWhitespace = false) := by
  intro l
  induction l with
  | nil => intro b h; simp [collapseWSAux] at h
  | cons x xs ih =>
    intro b h
    by_cases hx : x.isWhitespace
    · cases b with
      | true =>
        rw [show collapseWSAux true (x :: xs) = collapseWSAux true xs by
          simp [collapseWSAux, hx]] at h
        rcases ih true h with h1 | ⟨h2, h3⟩
        · exact Or.inl h1
        · exact Or.inr ⟨List.mem_cons_of_mem _ h2, h3⟩
      | false =>
        rw [show collapseWSAux false (x :: xs) = '_' :: collapseWSAux true xs by
          simp [collapseWSAux, hx]] at h
        rcases List.mem_cons.mp h with h | h
        · exact Or.inl h
        · rcases ih true h with h1 | ⟨h2, h3⟩
          · exact Or.inl h1
          · exact Or.inr ⟨List.mem_cons_of_mem _ h2, h3⟩
    · rw [show collapseWSAux b (x :: xs) = x :: collapseWSAux false xs by
        simp [collapseWSAux, hx]] at h
      rcases List.mem_cons.mp h with h | h
      · subst h
        exact Or.inr ⟨List.mem_cons_self _ _, by simpa using hx⟩
      · rcases ih false h with h1 | ⟨h2, h3⟩
        · exact Or.inl h1
        · exact Or.inr ⟨List.mem_cons_of_mem _ h2, h3⟩

theorem collapseWSAux_of_no_ws {l : List Char}
    (h : ∀ c ∈ l, c.isWhitespace = false) (b : Bool) :
    collapseWSAux b l = l := by
  induction l generalizing b with
  | nil => rfl
  | cons x xs ih =>
    have hx : x.isWhitespace = false := h x (List.mem_cons_self _ _)
    simp only [collapseWSAux, hx, Bool.false_eq_true, if_false]
    exact congrArg (x :: ·) (ih (fun c hc => h c (List.mem_cons_of_mem _ hc)) false)

theorem dropWhile_of_none {α : Type} (p : α → Bool) {l : List α}
    (h : ∀ c ∈ l, p c = false) : l.dropWhile p = l := by
  cases l with
  | nil => rfl
  | cons x xs =>
    rw [List.dropWhile_cons_of_neg]
    simp [h x (List.mem_cons_self _ _)]

theorem mem_trimWS {c : Char} {l : List Char} (h : c ∈ trimWS l) : c ∈ l := by
  unfold trimWS at h
  have h1 := List.mem_reverse.mp h
  have h2 := List.Sublist.mem h1 (List.dropWhile_sublist _)
  have h3 := List.mem_reverse.mp h2
  exact List.Sublist.mem h3 (List.dropWhile_sublist _)

/-- A character list is in normalized form: only word characters, no
whitespace, fixed by lowercasing. -/
def NormForm (l : List Char) : Prop :=
  ∀ c ∈ l, isWordChar c = true ∧ c.isWhitespace = false ∧ c.toLower = c

theorem normForm_output {l : List Char}
    (hl : ∀ c ∈ l, c = '_' ∨ ∃ x : Char, c = x.toLower) :
    NormForm (collapseWS (stripNonWord l)) := by
  intro c hc
  rcases mem_collapseWSAux _ false hc with h | ⟨h2, h3⟩
  · subst h; refine ⟨by decide, by decide, by decide⟩
  · have hmem := List.mem_filter.mp h2
    have hword : isWordChar c = true := by
      rcases Bool.or_eq_true_iff.mp hmem.2 with h | h
      · exact h
      · rw [h3] at h; cases h
    refine ⟨hword, h3, ?_⟩
    rcases hl c hmem.1 with h | ⟨x, hx⟩
    · subst h; decide
    · subst hx; exact toLower_idempotent x

theorem normalizeKey_of_normForm {l : List Char} (h : NormForm l) :
    normalizeKey (String.mk l) = String.mk l := by
  have hdata : (String.mk l).data = l := rfl
  have hmap : l.map Char.toLower = l := by
    rw [show l.map Char.toLower = l.map id from
      List.map_congr_left (fun c hc => (h c hc).2.2), List.map_id]
  have hnows : ∀ c ∈ l, c.isWhitespace = false := fun c hc => (h c hc).2.1
  have htrim : trimWS l = l := by
    unfold trimWS
    rw [dropWhile_of_none _ hnows, dropWhile_of_none, List.reverse_reverse]
    intro c hc
    exact hnows c (List.mem_reverse.mp hc)
  have hfilter : stripNonWord l = l := by
    unfold stripNonWord
    apply List.filter_eq_self.mpr
    intro c hc
    exact Bool.or_eq_true_iff.mpr (Or.inl (h c hc).1)
  unfold normalizeKey
  rw [hdata, hmap, htrim, hfilter]
  exact congrArg String.mk (collapseWSAux_of_no_ws hnows false)

theorem normalizeKey_normForm (s : String) :
    NormForm (normalizeKey s).data := by
  have : (normalizeKey s).data
      = collapseWS (stripNonWord (trimWS (s.data.map Char.toLower))) := rfl
  rw [this]
  apply normForm_output
  intro c hc
  have hc' : c ∈ s.data.map Char.toLower := mem_trimWS hc
  rcases List.mem_map.mp hc' with ⟨x, _, hx⟩
  exact Or.inr ⟨x, hx.symm⟩

theorem createFuzzyMatchingString_normForm (a t : String) :
    NormForm (createFuzzyMatchingString a t).data := by
  have : (createFuzzyMatchingString a t).data
      = collapseWS (stripNonWord (cleanField a ++ "_" ++ cleanField t).data) := rfl
  rw [this]
  apply normForm_output
  intro c hc
  have hc' : c ∈ (cleanField a).data ++ '_' :: (cleanField t).data := by
    simpa [String.data_append] using hc
  have hfield : ∀ (u : String), c ∈ (cleanField u).data → ∃ x : Char, c = x.toLower := by
    intro u hu
    have hu' : c ∈ u.data.map Char.toLower := mem_trimWS hu
    rcases List.mem_map.mp hu' with ⟨x, _, hx⟩
    exact ⟨x, hx.symm⟩
  rcases List.mem_append.mp hc' with h | h
  · exact Or.inr (hfield a h)
  · rcases List.mem_cons.mp h with h | h
    · exact Or.inl h
    · exact Or.inr (hfield t h)

theorem normalizeKey_idempotent (s : String) :
    normalizeKey (normalizeKey s) = normalizeKey s := by
  have h := normalizeKey_of_normForm (normalizeKey_normForm s)
  simpa using h

theorem normalizeKey_createFuzzy_fixed (a t : String) :
    normalizeKey (createFuzzyMatchingString a t) = createFuzzyMatchingString a t := by
  have h := normalizeKey_of_normForm (createFuzzyMatchingString_normForm a t)
  simpa using h

/-- C6 (amended): the jobs-posting normalization (which keeps underscores,
since `\w` matches them) is total and idempotent on every input string,
and every key produced by `create_fuzzy_matching_string` is a fixed point
of it. The lighthouse normalization is excluded: its alphanumeric filter
deletes the underscores it itself introduced, so it is not idempotent. -/
theorem C6_normalization_idempotent :
    (∀ s : String, normalizeKey (normalizeKey s) = normalizeKey s) ∧
    (∀ a t : String,
      normalizeKey (createFuzzyMatchingString a t) = createFuzzyMatchingString a t) :=
  ⟨normalizeKey_idempotent, normalizeKey_createFuzzy_fixed⟩

/-- C6 counterexample: the lighthouse normalization maps the already
normalized key `"park_worker"` to `"parkworker"`, so normalizing a
normalized key does not always return the same key. -/
theorem C6_counterexample :
    cleanTitle "park worker" = "park_worker" ∧
    cleanTitle (cleanTitle "park worker") ≠ cleanTitle "park worker" := by
  constructor
  · rfl
  · decide

/-! ### Similarity Scorer

`difflib.SequenceMatcher(None, a, b).ratio()` as called by both
processors: `2 * M / T` where `T` is the total length of both strings
and `M` is the total size of the matching blocks found by recursively
taking the longest matching block (among maximal blocks the one starting
earliest in `a`, then earliest in `b`) and recursing on the two
remainders.  Recursion is structural on an explicit fuel bounded by the
total length, so that the function evaluates inside the kernel; the fuel
is shown to be irrelevant once it is at least the total length. -/

/-- Size of the matching block starting at the heads of the two lists:
the length of their longest common prefix. -/
def matchLen : List Char → List Char → Nat
  | x :: xs, y :: ys => if x = y then matchLen xs ys + 1 else 0
  | _, _ => 0

/-- Inner scan of `find_longest_match`: for a fixed start `i` in `a`,
try every start `j` in `b`, keeping the strictly larger block. -/
def flmInner (a b : List Char) (i : Nat) (s : Nat × Nat × Nat) : Nat × Nat × Nat :=
  (List.range b.length).foldl (fun best' j =>
    if best'.2.2 < matchLen (a.drop i) (b.drop j) then
      (i, j, matchLen (a.drop i) (b.drop j))
    else best') s

/-- `find_longest_match` over the full strings: the longest matching
block as (start in `a`, start in `b`, size); among maximal blocks the
one starting earliest in `a`, then earliest in `b`. -/
def findLongestMatch (a b : List Char) : Nat × Nat × Nat :=
  (List.range a.length).foldl (fun best i => flmInner a b i best) (0, 0, 0)

/-- Total matched size `M`: longest block plus the matches of the left
and right remainders. -/
def rMatchesFuel : Nat → List Char → List Char → Nat
  | 0, _, _ => 0
  | fuel + 1, a, b =>
    if (findLongestMatch a b).2.2 = 0 then 0
    else
      (findLongestMatch a b).2.2
        + rMatchesFuel fuel (a.take (findLongestMatch a b).1)
            (b.take (findLongestMatch a b).2.1)
        + rMatchesFuel fuel
            (a.drop ((findLongestMatch a b).1 + (findLongestMatch a b).2.2))
            (b.drop ((findLongestMatch a b).2.1 + (findLongestMatch a b).2.2))

/-- Total matched size of the Ratcliff/Obershelp recursion. -/
def rMatches (a b : List Char) : Nat := rMatchesFuel (a.length + b.length) a b

/-- `SequenceMatcher.ratio`: `2 * M / T`, and `1.0` when both strings
are empty (difflib `_calculate_ratio`).  The exact rational `2M/T` is
built with `mkRat` (numerator over denominator in lowest terms), which
equals the division `2 * M / T` in `ℚ`; see `ratio_eq_div`. -/
def ratio (a b : String) : ℚ :=
  if a.data.length + b.data.length = 0 then 1
  else mkRat (2 * rMatches a.data b.data) (a.data.length + b.data.length)

theorem ratio_eq_div (a b : String) : ratio a b =
    if a.data.length + b.data.length = 0 then 1
    else 2 * (rMatches a.data b.data : ℚ)
      / ((a.data.length : ℚ) + (b.data.length : ℚ)) := by
  unfold ratio
  split
  · rfl
  · rw [Rat.mkRat_eq_div]
    push_cast
    ring

theorem matchLen_le_left : ∀ x y : List Char, matchLen x y ≤ x.length := by
  intro x
  induction x with
  | nil => intro y; cases y <;> simp [matchLen]
  | cons a as ih =>
    intro y
    cases y with
    | nil => simp [matchLen]
    | cons b bs =>
      by_cases h : a = b <;> simp [matchLen, h]
      exact ih bs

theorem matchLen_le_right : ∀ x y : List Char, matchLen x y ≤ y.length := by
  intro x
  induction x with
  | nil => intro y; cases y <;> simp [matchLen]
  | cons a as ih =>
    intro y
    cases y with
    | nil => simp [matchLen]
    | cons b bs =>
      by_cases h : a = b <;> simp [matchLen, h]
      exact ih bs

theorem matchLen_self : ∀ l : List Char, matchLen l l = l.length := by
  intro l
  induction l with
  | nil => rfl
  | cons x xs ih => simp [matchLen, ih]

theorem foldl_preserve {α β : Type} {f : β → α → β} {P : β → Prop} :
    ∀ {l : List α} {init : β}, P init → (∀ s x, x ∈ l → P s → P (f s x)) →
      P (l.foldl f init) := by
  intro l
  induction l with
  | nil => intro init h0 _; exact h0
  | cons x xs ih =>
    intro init h0 hstep
    exact ih (hstep init x (List.mem_cons_self _ _) h0)
      (fun s y hy => hstep s y (List.mem_cons_of_mem _ hy))

theorem foldl_nat_mono {α β : Type} (f : β → α → β) (g : β → Nat)
    (hmono : ∀ s x, g s ≤ g (f s x)) :
    ∀ (l : List α) (init : β), g init ≤ g (l.foldl f init) := by
  intro l
  induction l with
  | nil => intro init; exact le_rfl
  | cons x xs ih =>
    intro init
    exact le_trans (hmono init x) (ih (f init x))

theorem foldl_nat_ge_of_mem {α β : Type} (f : β → α → β) (g : β → Nat)
    (v : Nat) (z : α) (hmono : ∀ s x, g s ≤ g (f s x))
    (hval : ∀ s, v ≤ g (f s z)) :
    ∀ (l : List α) (init : β), z ∈ l → v ≤ g (l.foldl f init) := by
  intro l
  induction l with
  | nil => intro init h; cases h
  | cons y ys ih =>
    intro init h
    rcases List.mem_cons.mp h with h | h
    · subst h
      exact le_trans (hval init) (foldl_nat_mono f g hmono ys (f init z))
    · exact ih (f init y) h

theorem flmInner_bounds (a b : List Char) (i : Nat) (hi : i < a.length)
    (s : Nat × Nat × Nat)
    (hs : s.2.2 + s.1 ≤ a.length ∧ s.2.2 + s.2.1 ≤ b.length) :
    (flmInner a b i s).2.2 + (flmInner a b i s).1 ≤ a.length ∧
    (flmInner a b i s).2.2 + (flmInner a b i s).2.1 ≤ b.length := by
  unfold flmInner
  apply foldl_preserve (P := fun t : Nat × Nat × Nat =>
    t.2.2 + t.1 ≤ a.length ∧ t.2.2 + t.2.1 ≤ b.length) hs
  intro s' j hj hs'
  by_cases hlt : s'.2.2 < matchLen (a.drop i) (b.drop j)
  · rw [if_pos hlt]
    have h1 := matchLen_le_left (a.drop i) (b.drop j)
    have h2 := matchLen_le_right (a.drop i) (b.drop j)
    rw [List.length_drop] at h1 h2
    have hj' := List.mem_range.mp hj
    constructor <;> simp <;> omega
  · rw [if_neg hlt]; exact hs'

theorem flm_bounds (a b : List Char) :
    (findLongestMatch a b).2.2 + (findLongestMatch a b).1 ≤ a.length ∧
    (findLongestMatch a b).2.2 + (findLongestMatch a b).2.1 ≤ b.length := by
  unfold findLongestMatch
  apply foldl_preserve (P := fun t : Nat × Nat × Nat =>
    t.2.2 + t.1 ≤ a.length ∧ t.2.2 + t.2.1 ≤ b.length)
  · simp
  · intro s i hi hs
    exact flmInner_bounds a b i (List.mem_range.mp hi) s hs

theorem flm_step_mono (a b : List Char) (i : Nat) :
    ∀ (s : Nat × Nat × Nat) (j : Nat), (fun t : Nat × Nat × Nat => t.2.2) s ≤
      (fun t : Nat × Nat × Nat => t.2.2)
      (if s.2.2 < matchLen (a.drop i) (b.drop j) then
        (i, j, matchLen (a.drop i) (b.drop j)) else s) := by
  intro s j
  by_cases h : s.2.2 < matchLen (a.drop i) (b.drop j)
  · rw [if_pos h]; exact Nat.le_of_lt h
  · rw [if_neg h]

theorem flmInner_mono (a b : List Char) (i : Nat) (s : Nat × Nat × Nat) :
    s.2.2 ≤ (flmInner a b i s).2.2 := by
  unfold flmInner
  exact foldl_nat_mono _ (fun t : Nat × Nat × Nat => t.2.2)
    (flm_step_mono a b i) _ s

theorem flmInner_ge_zero (a b : List Char) (hb : b ≠ []) (s : Nat × Nat × Nat) :
    matchLen a b ≤ (flmInner a b 0 s).2.2 := by
  unfold flmInner
  apply foldl_nat_ge_of_mem _ (fun t : Nat × Nat × Nat => t.2.2)
    (matchLen a b) 0 (flm_step_mono a b 0)
  · intro s'
    by_cases h : s'.2.2 < matchLen (a.drop 0) (b.drop 0)
    · rw [if_pos h]; simp
    · rw [if_neg h]; simp at h; simpa using h
  · exact List.mem_range.mpr (List.length_pos.mpr hb)

theorem flm_ge_head (a b : List Char) (ha : a ≠ []) (hb : b ≠ []) :
    matchLen a b ≤ (findLongestMatch a b).2.2 := by
  unfold findLongestMatch
  apply foldl_nat_ge_of_mem _ (fun t : Nat × Nat × Nat => t.2.2)
    (matchLen a b) 0
    (fun s i => flmInner_mono a b i s)
  · intro s
    exact flmInner_ge_zero a b hb s
  · exact List.mem_range.mpr (List.length_pos.mpr ha)

theorem foldl_const {α β : Type} : ∀ (l : List α) (init : β),
    l.foldl (fun s _ => s) init = init := by
  intro l
  induction l with
  | nil => intro init; rfl
  | cons x xs ih => intro init; exact ih init

theorem flm_nil_left (b : List Char) : findLongestMatch [] b = (0, 0, 0) := rfl

theorem flmInner_nil (a : List Char) (i : Nat) (s : Nat × Nat × Nat) :
    flmInner a [] i s = s := by
  unfold flmInner
  simp

theorem flm_nil_right (a : List Char) : findLongestMatch a [] = (0, 0, 0) := by
  unfold findLongestMatch
  have : ∀ (l : List Nat) (s : Nat × Nat × Nat),
      l.foldl (fun best i => flmInner a [] i best) s = s := by
    intro l
    induction l with
    | nil => intro s; rfl
    | cons x xs ih => intro s; rw [List.foldl_cons, flmInner_nil]; exact ih s
  exact this _ _

theorem rMatchesFuel_nil_left : ∀ (f : Nat) (b : List Char),
    rMatchesFuel f [] b = 0 := by
  intro f b
  cases f with
  | zero => rfl
  | succ g => simp [rMatchesFuel, flm_nil_left]

theorem rMatchesFuel_nil_right : ∀ (f : Nat) (a : List Char),
    rMatchesFuel f a [] = 0 := by
  intro f a
  cases f with
  | zero => rfl
  | succ g => simp [rMatchesFuel, flm_nil_right]

theorem rMatchesFuel_le (f : Nat) : ∀ (a b : List Char),
    rMatchesFuel f a b ≤ a.length ∧ rMatchesFuel f a b ≤ b.length := by
  induction f with
  | zero => intro a b; simp [rMatchesFuel]
  | succ g ih =>
    intro a b
    by_cases h : (findLongestMatch a b).2.2 = 0
    · simp [rMatchesFuel, h]
    · have hb := flm_bounds a b
      have h1 := ih (a.take (findLongestMatch a b).1)
        (b.take (findLongestMatch a b).2.1)
      have h2 := ih
        (a.drop ((findLongestMatch a b).1 + (findLongestMatch a b).2.2))
        (b.drop ((findLongestMatch a b).2.1 + (findLongestMatch a b).2.2))
      rw [List.length_take, List.length_take] at h1
      rw [List.length_drop, List.length_drop] at h2
      simp only [rMatchesFuel, h, if_false]
      omega

theorem rMatchesFuel_irrel : ∀ (f1 : Nat), ∀ (f2 : Nat) (a b : List Char),
    a.length + b.length ≤ f1 → a.length + b.length ≤ f2 →
    rMatchesFuel f1 a b = rMatchesFuel f2 a b := by
  intro f1
  induction f1 with
  | zero =>
    intro f2 a b h1 _
    have ha : a = [] := List.eq_nil_of_length_eq_zero (by omega)
    subst ha
    rw [rMatchesFuel_nil_left, rMatchesFuel_nil_left]
  | succ g ih =>
    intro f2 a b h1 h2
    cases f2 with
    | zero =>
      have ha : a = [] := List.eq_nil_of_length_eq_zero (by omega)
      subst ha
      rw [rMatchesFuel_nil_left, rMatchesFuel_nil_left]
    | succ g2 =>
      by_cases h : (findLongestMatch a b).2.2 = 0
      · simp [rMatchesFuel, h]
      · have hb := flm_bounds a b
        simp only [rMatchesFuel, h, if_false]
        have e1 := ih g2 (a.take (findLongestMatch a b).1)
          (b.take (findLongestMatch a b).2.1)
          (by rw [List.length_take, List.length_take]; omega)
          (by rw [List.length_take, List.length_take]; omega)
        have e2 := ih g2
          (a.drop ((findLongestMatch a b).1 + (findLongestMatch a b).2.2))
          (b.drop ((findLongestMatch a b).2.1 + (findLongestMatch a b).2.2))
          (by rw [List.length_drop, List.length_drop]; omega)
          (by rw [List.length_drop, List.length_drop]; omega)
        rw [e1, e2]

theorem rMatches_le (a b : List Char) :
    rMatches a b ≤ a.length ∧ rMatches a b ≤ b.length :=
  rMatchesFuel_le _ a b

theorem flm_self (l : List Char) (hl : l ≠ []) :
    findLongestMatch l l = (0, 0, l.length) := by
  have hub := flm_bounds l l
  have hlb := flm_ge_head l l hl hl
  rw [matchLen_self] at hlb
  have hk : (findLongestMatch l l).2.2 = l.length := by omega
  have hi : (findLongestMatch l l).1 = 0 := by omega
  have hj : (findLongestMatch l l).2.1 = 0 := by omega
  have : findLongestMatch l l
      = ((findLongestMatch l l).1, (findLongestMatch l l).2.1,
        (findLongestMatch l l).2.2) := rfl
  rw [this, hi, hj, hk]

theorem rMatches_self (l : List Char) : rMatches l l = l.length := by
  cases l with
  | nil => rfl
  | cons x xs =>
    have hl : x :: xs ≠ [] := by simp
    have hpos : 0 < (x :: xs).length + (x :: xs).length := by simp
    unfold rMatches
    rcases Nat.exists_eq_succ_of_ne_zero (Nat.pos_iff_ne_zero.mp hpos) with ⟨g, hg⟩
    rw [hg]
    have hflm := flm_self (x :: xs) hl
    have hne : (findLongestMatch (x :: xs) (x :: xs)).2.2 ≠ 0 := by
      rw [hflm]; simp
    simp only [rMatchesFuel, hne, if_false, hflm]
    simp [rMatchesFuel_nil_left, List.drop_length]

theorem string_data_nil {s : String} (h : s.data = []) : s = "" := by
  cases s
  simp at h
  simp [h]

theorem ratio_self {a : String} (ha : a ≠ "") : ratio a a = 1 := by
  have hd : a.data ≠ [] := fun h => ha (string_data_nil h)
  have hpos : 0 < a.data.length := List.length_pos.mpr hd
  rw [ratio_eq_div, if_neg (by omega), rMatches_self]
  have hq : ((a.data.length : ℚ) + (a.data.length : ℚ)) ≠ 0 := by
    have : (0 : ℚ) < (a.data.length : ℚ) := by exact_mod_cast hpos
    positivity
  rw [div_eq_one_iff_eq hq]
  ring

theorem ratio_nonneg (a b : String) : 0 ≤ ratio a b := by
  rw [ratio_eq_div]
  by_cases h : a.data.length + b.data.length = 0
  · rw [if_pos h]; norm_num
  · rw [if_neg h]
    apply div_nonneg
    · positivity
    · have : 0 < a.data.length + b.data.length := Nat.pos_of_ne_zero h
      have : (0 : ℚ) < (a.data.length : ℚ) + (b.data.length : ℚ) := by
        exact_mod_cast this
      exact le_of_lt this

theorem ratio_le_one (a b : String) : ratio a b ≤ 1 := by
  rw [ratio_eq_div]
  by_cases h : a.data.length + b.data.length = 0
  · rw [if_pos h]
  · rw [if_neg h]
    have hM := rMatches_le a.data b.data
    have hpos : 0 < a.data.length + b.data.length := Nat.pos_of_ne_zero h
    have hposq : (0 : ℚ) < (a.data.length : ℚ) + (b.data.length : ℚ) := by
      exact_mod_cast hpos
    rw [div_le_one hposq]
    have : 2 * rMatches a.data b.data ≤ a.data.length + b.data.length := by omega
    exact_mod_cast this

theorem ratio_empty_left {c : String} (hc : c ≠ "") : ratio "" c = 0 := by
  have hd : c.data ≠ [] := fun h => hc (string_data_nil h)
  have hpos : 0 < c.data.length := List.length_pos.mpr hd
  have h0 : "".data.length = 0 := rfl
  rw [ratio_eq_div, if_neg (by omega)]
  have hz : rMatches "".data c.data = 0 := by
    unfold rMatches
    exact rMatchesFuel_nil_left _ _
  rw [hz]
  simp

theorem ratio_empty_right {c : String} (hc : c ≠ "") : ratio c "" = 0 := by
  have hd : c.data ≠ [] := fun h => hc (string_data_nil h)
  have hpos : 0 < c.data.length := List.length_pos.mpr hd
  have h0 : "".data.length = 0 := rfl
  rw [ratio_eq_div, if_neg (by omega)]
  have hz : rMatches c.data "".data = 0 := by
    unfold rMatches
    exact rMatchesFuel_nil_right _ _
  rw [hz]
  simp

/-- C5: the similarity score is bounded by `[0, 1]` for every pair of
strings, and equals exactly `1` on every non-empty string paired with
itself. -/
theorem C5_score_bounds (a b : String) :
    (0 ≤ ratio a b ∧ ratio a b ≤ 1) ∧ (a ≠ "" → ratio a a = 1) :=
  ⟨⟨ratio_nonneg a b, ratio_le_one a b⟩, fun ha => ratio_self ha⟩

/-- C5 witness at concrete strings. -/
theorem C5_score_bounds_witness :
    (0 ≤ ratio "abc" "abd" ∧ ratio "abc" "abd" ≤ 1) ∧ ratio "abc" "abc" = 1 := by
  have h := C5_score_bounds "abc" "abd"
  have h2 := C5_score_bounds "abc" "abc"
  exact ⟨h.1, h2.2 (by decide)⟩

/-- C4 (amended): the similarity score is not symmetric in general — the
tie-break (earliest maximal block in the first argument) makes the two
directions differ — but it is symmetric whenever either string is empty
or the two strings are equal. -/
theorem C4_symmetry_partial (a b : String) (h : a = "" ∨ b = "" ∨ a = b) :
    ratio a b = ratio b a := by
  rcases h with h | h | h
  · subst h
    by_cases hb : b = ""
    · subst hb; rfl
    · rw [ratio_empty_left hb, ratio_empty_right hb]
  · subst h
    by_cases ha : a = ""
    · subst ha; rfl
    · rw [ratio_empty_left ha, ratio_empty_right ha]
  · subst h; rfl

/-- C4 witness at concrete strings. -/
theorem C4_symmetry_partial_witness : ratio "" "xy" = ratio "xy" "" :=
  C4_symmetry_partial "" "xy" (Or.inl rfl)

/-- C4 counterexample: `score("aba","bca") = 1/3` but
`score("bca","aba") = 2/3` (difflib returns 0.333... and 0.666... on this
pair), so the score is not symmetric. -/
theorem C4_counterexample :
    ratio "aba" "bca" = mkRat 1 3 ∧ ratio "bca" "aba" = mkRat 2 3 ∧
    ratio "aba" "bca" ≠ ratio "bca" "aba" := by
  refine ⟨by decide, by decide, by decide⟩


/-! ### Best-Match Resolver

`find_best_match_with_salary` (jobs processor, lines 183-204) scans the
payroll lookup keys keeping the strictly best score, then accepts iff
the final best score reaches the hard-coded threshold `0.85`
(`mkRat 85 100`).  `find_best_lighthouse_match` (lighthouse processor,
lines 306-327) instead only ever records a candidate whose score meets
the caller-supplied threshold during the scan.  Salary payloads are
pairs (average minimum, average maximum) keyed by the payroll fuzzy
string; the dict access `payroll_salary_lookup[best_match]` is modelled
by `List.find?` on the association list (dict keys are unique), and the
`KeyError` it raises when `best_match` is `None` is modelled as a `none`
result of the surrounding computation. -/

/-- Strictly-improving scan step shared by both resolvers: keep the
candidate when its score strictly exceeds the tracked best score. -/
def scanStep (q : String) (b : Option String × ℚ) (c : String) :
    Option String × ℚ :=
  if b.2 < ratio q c then (some c, ratio q c) else b

/-- Acceptance tail of `find_best_match_with_salary` (lines 199-204):
accept iff the tracked best score is at least `0.85`, then look the
matched key up in the salary dict; an accept with no tracked key is the
source's `KeyError` path (it cannot happen at this threshold). -/
def payrollAccept (lookup : List (String × (ℚ × ℚ)))
    (best : Option String × ℚ) :
    Option String × Option ℚ × Option ℚ × Option ℚ :=
  if mkRat 85 100 ≤ best.2 then
    match best.1 with
    | some k =>
      match lookup.find? (fun p => p.1 = k) with
      | some p => (some k, some best.2, some p.2.1, some p.2.2)
      | none => (none, none, none, none)
    | none => (none, none, none, none)
  else (none, none, none, none)

/-- `find_best_match_with_salary` (lines 183-204): reject falsy keys,
scan all payroll strings (skipping falsy ones) keeping the strictly
best score, then accept per `payrollAccept`. -/
def findBestMatchWithSalary (job_fuzzy_string : Option String)
    (lookup : List (String × (ℚ × ℚ))) :
    Option String × Option ℚ × Option ℚ × Option ℚ :=
  match job_fuzzy_string with
  | none => (none, none, none, none)
  | some q =>
    if q = "" then (none, none, none, none)
    else payrollAccept lookup (lookup.foldl
      (fun b p => if p.1 ≠ "" then scanStep q b p.1 else b) (none, 0))

/-- Emission tail of the specified resolver, at an arbitrary threshold. -/
def specAccept (q : String) (lookup : List (String × (ℚ × ℚ))) (t : ℚ)
    (best_score : ℚ) :
    Option String × Option ℚ × Option ℚ × Option ℚ :=
  if t ≤ best_score then
    match (lookup.map (fun p => p.1)).find?
        (fun c => ratio q c = best_score) with
    | some k =>
      match lookup.find? (fun p => p.1 = k) with
      | some p => (some k, some best_score, some p.2.1, some p.2.2)
      | none => (none, none, none, none)
    | none => (none, none, none, none)
  else (none, none, none, none)

/-- Modelled from the spec for the refinement comparison of C1: score the
left key against every candidate, take the maximum score, accept iff it
reaches the threshold, and return the first candidate attaining the
maximum together with its payload. -/
def resolverSpec (q : String) (lookup : List (String × (ℚ × ℚ)))
    (t : ℚ) : Option String × Option ℚ × Option ℚ × Option ℚ :=
  specAccept q lookup t
    (((lookup.map (fun p => p.1)).map (ratio q)).foldl max 0)

/-- Emission tail of the payroll strategy at threshold `t`: `none` marks
the `KeyError` raised on accepting with no tracked candidate. -/
def globalMaxEmit (t : ℚ) (best : Option String × ℚ) :
    Option (Option String × Option ℚ) :=
  if t ≤ best.2 then
    match best.1 with
    | some k => some (some k, some best.2)
    | none => none
  else some (none, none)

/-- The payroll strategy of C9 with the hard-coded `0.85` generalized to
a parameter: track the global maximum, test the threshold once at the
end. -/
def bestMatchGlobalMax (q : String) (cands : List String) (t : ℚ) :
    Option (Option String × Option ℚ) :=
  if q = "" then some (none, none)
  else globalMaxEmit t (cands.foldl
    (fun b c => if c ≠ "" then scanStep q b c else b) (none, 0))

/-- Emission of the lighthouse pass (driver lines 341-342): key and
score are emitted exactly when a match was recorded during the scan. -/
def scanEmit (best : Option String × ℚ) : Option String × Option ℚ :=
  match best.1 with
  | some k => (some k, some best.2)
  | none => (none, none)

/-- The lighthouse strategy of C9: only record candidates whose score
meets the threshold during the scan (lines 319-327), then emit per
`scanEmit`. -/
def bestMatchThresholdScan (q : String) (cands : List String) (t : ℚ) :
    Option String × Option ℚ :=
  scanEmit (cands.foldl
    (fun b c =>
      if c ≠ "" then
        if b.2 < ratio q c ∧ t ≤ ratio q c then (some c, ratio q c) else b
      else b) ((none : Option String), (0 : ℚ)))

/-- Running maximum of the scores, the value tracked by the scans. -/
def foldMax (q : String) (b : ℚ) (cands : List String) : ℚ :=
  cands.foldl (fun m c => max m (ratio q c)) b

theorem le_foldMax (q : String) :
    ∀ (cands : List String) (b : ℚ), b ≤ foldMax q b cands := by
  intro cands
  induction cands with
  | nil => intro b; exact le_rfl
  | cons c cs ih =>
    intro b
    exact le_trans (le_max_left b (ratio q c)) (ih (max b (ratio q c)))

theorem foldMax_cons (q : String) (b : ℚ) (c : String) (cs : List String) :
    foldMax q b (c :: cs) = foldMax q (max b (ratio q c)) cs := rfl

theorem foldMax_mem_le (q : String) :
    ∀ (cands : List String) (b : ℚ) (c : String), c ∈ cands →
      ratio q c ≤ foldMax q b cands := by
  intro cands
  induction cands with
  | nil => intro b c h; cases h
  | cons x xs ih =>
    intro b c h
    rcases List.mem_cons.mp h with h | h
    · subst h
      exact le_trans (le_max_right b (ratio q c)) (le_foldMax q xs _)
    · exact ih _ c h

theorem foldMax_eq_base_or_mem (q : String) :
    ∀ (cands : List String) (b : ℚ), foldMax q b cands = b ∨
      ∃ c ∈ cands, foldMax q b cands = ratio q c := by
  intro cands
  induction cands with
  | nil => intro b; exact Or.inl rfl
  | cons x xs ih =>
    intro b
    rw [foldMax_cons]
    rcases ih (max b (ratio q x)) with h | ⟨c, hc, he⟩
    · rw [h]
      rcases max_cases b (ratio q x) with ⟨he, _⟩ | ⟨he, _⟩
      · exact Or.inl he
      · exact Or.inr ⟨x, List.mem_cons_self _ _, he⟩
    · exact Or.inr ⟨c, List.mem_cons_of_mem _ hc, he⟩

/-- The strict-improvement scan computes the running maximum, and its
tracked candidate is the first one attaining that maximum (or the
initial candidate when no score improved on the initial best). -/
theorem scanFold_eq (q : String) :
    ∀ (cands : List String) (k : Option String) (b : ℚ),
      cands.foldl (scanStep q) (k, b)
        = (if foldMax q b cands ≤ b then k
           else cands.find? (fun c => ratio q c = foldMax q b cands),
           foldMax q b cands) := by
  intro cands
  induction cands with
  | nil =>
    intro k b
    simp [foldMax]
  | cons c cs ih =>
    intro k b
    rw [List.foldl_cons, foldMax_cons]
    by_cases hlt : b < ratio q c
    · have hmax : max b (ratio q c) = ratio q c := max_eq_right (le_of_lt hlt)
      have hstep : scanStep q (k, b) c = (some c, ratio q c) := by
        simp [scanStep, hlt]
      rw [hmax, hstep, ih]
      have hM := le_foldMax q cs (ratio q c)
      have hMb : ¬ foldMax q (ratio q c) cs ≤ b :=
        not_le.mpr (lt_of_lt_of_le hlt hM)
      by_cases hle : foldMax q (ratio q c) cs ≤ ratio q c
      · have heq : ratio q c = foldMax q (ratio q c) cs := le_antisymm hM hle
        rw [if_pos hle, if_neg hMb,
          List.find?_cons_of_pos _ (by simp [← heq])]
      · rw [if_neg hle, if_neg hMb,
          List.find?_cons_of_neg _ (by
            simp only [decide_eq_true_eq]
            intro he
            exact hle (le_of_eq he.symm))]
    · have hmax : max b (ratio q c) = b := max_eq_left (le_of_not_lt hlt)
      have hstep : scanStep q (k, b) c = (k, b) := by
        simp [scanStep, hlt]
      rw [hmax, hstep, ih]
      by_cases hle : foldMax q b cs ≤ b
      · rw [if_pos hle, if_pos hle]
      · rw [if_neg hle, if_neg hle,
          List.find?_cons_of_neg _ (by
            simp only [decide_eq_true_eq]
            intro he
            exact hle (he ▸ le_of_not_lt hlt))]

/-- A guard that skips falsy strings equals folding over the filtered
list. -/
theorem foldl_guard_filter {β : Type} (f : β → String → β) :
    ∀ (cands : List String) (init : β),
      cands.foldl (fun b c => if c ≠ "" then f b c else b) init
        = (cands.filter (fun c => !(c == ""))).foldl f init := by
  intro cands
  induction cands with
  | nil => intro init; rfl
  | cons c cs ih =>
    intro init
    by_cases hc : c = ""
    · rw [List.foldl_cons, if_neg (by simp [hc]),
        List.filter_cons_of_neg (by simp [hc])]
      exact ih init
    · rw [List.foldl_cons, if_pos hc,
        List.filter_cons_of_pos (by simp [hc]), List.foldl_cons]
      exact ih (f init c)

/-- The threshold-gated scan step equals the plain scan over candidates
whose score meets the threshold. -/
theorem foldl_threshold_filter (q : String) (t : ℚ) :
    ∀ (cands : List String) (init : Option String × ℚ),
      cands.foldl (fun b c =>
        if b.2 < ratio q c ∧ t ≤ ratio q c then (some c, ratio q c) else b) init
        = (cands.filter (fun c => decide (t ≤ ratio q c))).foldl
            (scanStep q) init := by
  intro cands
  induction cands with
  | nil => intro init; rfl
  | cons c cs ih =>
    intro init
    by_cases hts : t ≤ ratio q c
    · have hstep : (if init.2 < ratio q c ∧ t ≤ ratio q c then
          (some c, ratio q c) else init) = scanStep q init c := by
        by_cases h2 : init.2 < ratio q c <;> simp [scanStep, h2, hts]
      rw [List.foldl_cons, List.filter_cons_of_pos (by simpa using hts),
        List.foldl_cons, hstep]
      exact ih (scanStep q init c)
    · have hstep : (if init.2 < ratio q c ∧ t ≤ ratio q c then
          (some c, ratio q c) else init) = init := by
        simp [hts]
      rw [List.foldl_cons, List.filter_cons_of_neg (by simpa using hts),
        hstep]
      exact ih init

/-- `find?` is unchanged by filtering with a weaker predicate. -/
theorem find?_filter_of_imp {p r : String → Bool} :
    ∀ (l : List String), (∀ c, r c = true → p c = true) →
      (l.filter p).find? r = l.find? r := by
  intro l h
  induction l with
  | nil => rfl
  | cons c cs ih =>
    by_cases hp : p c = true
    · by_cases hr : r c = true
      · rw [List.filter_cons_of_pos hp, List.find?_cons_of_pos _ hr,
          List.find?_cons_of_pos _ hr]
      · rw [List.filter_cons_of_pos hp,
          List.find?_cons_of_neg _ (by simpa using hr),
          List.find?_cons_of_neg _ (by simpa using hr)]
        exact ih
    · have hr : r c = false := by
        cases hrc : r c
        · rfl
        · exact absurd (h c hrc) hp
      rw [List.filter_cons_of_neg (by simpa using hp),
        List.find?_cons_of_neg _ (by simp [hr])]
      exact ih

theorem threshold_pos : (0 : ℚ) < mkRat 85 100 := by decide

theorem foldMax_empty_key (cands : List String)
    (hc : ∀ c ∈ cands, c ≠ "") : foldMax "" 0 cands = 0 := by
  rcases foldMax_eq_base_or_mem "" cands 0 with h | ⟨c, hmem, he⟩
  · exact h
  · rw [he, ratio_empty_left (hc c hmem)]

/-- C1: for every left key and candidate lookup (candidate keys being
normalized non-empty strings), `find_best_match_with_salary` is exactly
the specified Best-Match Resolver at threshold `0.85`: it scores the key
against every candidate, tracks the maximum, accepts iff the maximum
reaches `0.85`, ties go to the first candidate in list order, and the
accepted result carries the matched key, its score, and its averaged
salary payload, while a rejection leaves all four fields absent. -/
theorem C1_payroll_resolver_correct (q : String)
    (lookup : List (String × (ℚ × ℚ))) (hcands : ∀ p ∈ lookup, p.1 ≠ "") :
    findBestMatchWithSalary (some q) lookup
      = resolverSpec q lookup (mkRat 85 100) := by
  have hmapne : ∀ c ∈ lookup.map (fun p => p.1), c ≠ "" := by
    intro c hc
    rcases List.mem_map.mp hc with ⟨p, hp, he⟩
    exact he ▸ hcands p hp
  have hfilter : (lookup.map (fun p => p.1)).filter (fun c => !(c == ""))
      = lookup.map (fun p => p.1) := by
    apply List.filter_eq_self.mpr
    intro c hc
    simp [hmapne c hc]
  have hfold : lookup.foldl
      (fun b p => if p.1 ≠ "" then scanStep q b p.1 else b)
      ((none : Option String), (0 : ℚ))
      = (lookup.map (fun p => p.1)).foldl (scanStep q) (none, 0) := by
    rw [← List.foldl_map (fun p : String × (ℚ × ℚ) => p.1)
      (fun b c => if c ≠ "" then scanStep q b c else b),
      foldl_guard_filter, hfilter]
  have hspecmax : ((lookup.map (fun p => p.1)).map (ratio q)).foldl max 0
      = foldMax q 0 (lookup.map (fun p => p.1)) := by
    rw [List.foldl_map]
    rfl
  have hbody : findBestMatchWithSalary (some q) lookup
      = if q = "" then (none, none, none, none)
        else payrollAccept lookup (lookup.foldl
          (fun b p => if p.1 ≠ "" then scanStep q b p.1 else b) (none, 0)) := rfl
  rw [hbody]
  unfold resolverSpec
  rw [hspecmax]
  by_cases hq : q = ""
  · subst hq
    rw [if_pos rfl]
    have hM : foldMax "" 0 (lookup.map (fun p => p.1)) = 0 :=
      foldMax_empty_key _ hmapne
    unfold specAccept
    rw [hM, if_neg (not_le.mpr threshold_pos)]
  · rw [if_neg hq, hfold, scanFold_eq]
    set M := foldMax q 0 (lookup.map (fun p => p.1)) with hMdef
    unfold payrollAccept specAccept
    by_cases hacc : mkRat 85 100 ≤ M
    · have hMpos : ¬ M ≤ 0 := not_le.mpr (lt_of_lt_of_le threshold_pos hacc)
      rw [if_neg hMpos]
    · rw [if_neg hacc, if_neg hacc]

/-- C1 witness: a concrete lookup with one exactly-matching key. -/
theorem C1_payroll_resolver_correct_witness :
    (∀ p ∈ [("dept_x_clerk", ((mkRat 30000 1 : ℚ), (mkRat 35000 1 : ℚ)))],
      p.1 ≠ "") ∧
    findBestMatchWithSalary (some "dept_x_clerk")
        [("dept_x_clerk", (mkRat 30000 1, mkRat 35000 1))]
      = resolverSpec "dept_x_clerk"
        [("dept_x_clerk", (mkRat 30000 1, mkRat 35000 1))] (mkRat 85 100) :=
  ⟨by decide, C1_payroll_resolver_correct _ _ (by decide)⟩

/-- C9 (amended): for every strictly positive threshold the two resolver
strategies — global maximum tested once at the end (payroll pass) versus
only recording candidates that meet the threshold during the scan
(lighthouse pass) — emit the same accepted/rejected decision, the same
matched key and the same emitted score.  At threshold `0` they differ:
see the counterexample. -/
theorem C9_resolver_strategies_equivalent (q : String) (cands : List String)
    (t : ℚ) (ht : 0 < t) :
    bestMatchGlobalMax q cands t = some (bestMatchThresholdScan q cands t) := by
  unfold bestMatchGlobalMax bestMatchThresholdScan
  rw [foldl_guard_filter (scanStep q),
    foldl_guard_filter (fun b c =>
      if b.2 < ratio q c ∧ t ≤ ratio q c then (some c, ratio q c) else b),
    foldl_threshold_filter]
  set G := cands.filter (fun c => !(c == "")) with hGdef
  have hGne : ∀ c ∈ G, c ≠ "" := by
    intro c hc
    have := (List.mem_filter.mp hc).2
    simpa using this
  set F := G.filter (fun c => decide (t ≤ ratio q c)) with hFdef
  rw [scanFold_eq, scanFold_eq]
  set M := foldMax q 0 G with hMdef
  by_cases hq : q = ""
  · rw [if_pos hq]
    subst hq
    have hF0 : F = [] := by
      rw [hFdef]
      apply List.filter_eq_nil_iff.mpr
      intro c hc
      rw [ratio_empty_left (hGne c hc)]
      simpa using ht
    rw [hF0]
    have h0 : foldMax "" 0 ([] : List String) = 0 := rfl
    rw [h0]
    rfl
  · rw [if_neg hq]
    by_cases hacc : t ≤ M
    · have hMpos : 0 < M := lt_of_lt_of_le ht hacc
      rcases foldMax_eq_base_or_mem q G 0 with h0 | ⟨c0, hc0, he0⟩
      · rw [← hMdef] at h0
        exact absurd (h0 ▸ hMpos) (lt_irrefl 0)
      · rw [← hMdef] at he0
        have hc0F : c0 ∈ F := by
          rw [hFdef]
          exact List.mem_filter.mpr ⟨hc0, decide_eq_true (he0 ▸ hacc)⟩
        have hMF : foldMax q 0 F = M := by
          apply le_antisymm
          · rcases foldMax_eq_base_or_mem q F 0 with h1 | ⟨c1, hc1, he1⟩
            · rw [h1]; exact le_of_lt hMpos
            · rw [he1]
              have hmem : c1 ∈ G := by
                rw [hFdef] at hc1
                exact (List.mem_filter.mp hc1).1
              exact foldMax_mem_le q G 0 c1 hmem
          · rw [he0]
            exact foldMax_mem_le q F 0 c0 hc0F
        have hfind : F.find? (fun c => ratio q c = M)
            = G.find? (fun c => ratio q c = M) := by
          rw [hFdef]
          apply find?_filter_of_imp
          intro c hc
          have he : ratio q c = M := by simpa using hc
          exact decide_eq_true (he ▸ hacc)
        have hsome : ∃ k, G.find? (fun c => ratio q c = M) = some k := by
          rw [← Option.isSome_iff_exists, List.find?_isSome]
          exact ⟨c0, hc0, decide_eq_true he0.symm⟩
        rcases hsome with ⟨k, hk⟩
        have hLHS : globalMaxEmit t
            ((if M ≤ 0 then none else G.find? (fun c => ratio q c = M)), M)
            = some (some k, some M) := by
          rw [if_neg (not_le.mpr hMpos), hk]
          simp [globalMaxEmit, hacc]
        have hRHS : scanEmit
            ((if foldMax q 0 F ≤ 0 then none
              else F.find? (fun c => ratio q c = foldMax q 0 F)),
             foldMax q 0 F) = (some k, some M) := by
          rw [hMF, if_neg (not_le.mpr hMpos), hfind, hk]
          simp [scanEmit]
        rw [hLHS, hRHS]
    · have hFnil : F = [] := by
        rw [hFdef]
        apply List.filter_eq_nil_iff.mpr
        intro c hc
        simp only [decide_eq_true_eq]
        exact not_le.mpr (lt_of_le_of_lt (foldMax_mem_le q G 0 c hc)
          (not_le.mp hacc))
      rw [hFnil]
      unfold globalMaxEmit scanEmit
      rw [if_neg hacc]
      have h0 : foldMax q 0 ([] : List String) = 0 := rfl
      rw [h0]
      rfl

/-- C9 witness at a concrete key, candidate list and threshold `0.7`. -/
theorem C9_resolver_strategies_equivalent_witness :
    (0 : ℚ) < mkRat 7 10 ∧
    bestMatchGlobalMax "ab" ["ab", "cd"] (mkRat 7 10)
      = some (bestMatchThresholdScan "ab" ["ab", "cd"] (mkRat 7 10)) :=
  ⟨by decide, C9_resolver_strategies_equivalent _ _ _ (by decide)⟩

/-- C9 counterexample: at threshold `0`, on a key and candidate with no
common character, the payroll strategy enters its accept branch with no
tracked candidate — the source raises `KeyError` there, modelled as
`none` — while the lighthouse strategy cleanly rejects, so the two
strategies are not equivalent for every threshold. -/
theorem C9_counterexample :
    bestMatchGlobalMax "a" ["b"] 0 = none ∧
    bestMatchThresholdScan "a" ["b"] 0 = (none, none) ∧
    bestMatchGlobalMax "a" ["b"] 0
      ≠ some (bestMatchThresholdScan "a" ["b"] 0) := by
  refine ⟨by decide, by decide, by decide⟩

/-! ### Lighthouse matching and the Reconciliation Driver

`find_best_lighthouse_match` (lighthouse processor, lines 306-327)
cleans the business title, scans the lighthouse lookup keys recording a
candidate only when its score strictly improves on the best so far and
meets the threshold, and carries the matched entry's payload along.
`generate_posting_duration_dataset` (lines 332-365) enriches each job
row in input order with the match fields and the duration variance. -/

/-- Payload attributes of one lighthouse lookup entry (lines 290-300). -/
structure LighthouseEntry where
  original_title : String
  median_duration : Option ℚ
  total_postings : Option ℚ
  median_salary : Option ℚ
  top_skills : Option String
  education_requirements : Option String
  experience_level : Option String
  salary_category : Option String
  posting_intensity : Option ℚ

/-- Scan step of `find_best_lighthouse_match` (lines 319-325): skip
falsy titles; record a candidate whose score strictly improves on the
best and meets the threshold, together with its payload. -/
def lighthouseScanStep (q : String) (t : ℚ)
    (b : Option String × ℚ × Option LighthouseEntry)
    (p : String × LighthouseEntry) :
    Option String × ℚ × Option LighthouseEntry :=
  if p.1 ≠ "" then
    if b.2.1 < ratio q p.1 ∧ t ≤ ratio q p.1 then (some p.1, ratio q p.1, some p.2)
    else b
  else b

/-- `find_best_lighthouse_match` (lines 306-327): falsy titles yield
`(None, 0.0, {})`; otherwise clean the title and scan. -/
def findBestLighthouseMatch (business_title : Option String)
    (lookup : List (String × LighthouseEntry)) (t : ℚ) :
    Option String × ℚ × Option LighthouseEntry :=
  match business_title with
  | none => (none, 0, none)
  | some bt =>
    if bt = "" then (none, 0, none)
    else lookup.foldl (lighthouseScanStep (cleanTitle bt) t) (none, 0, none)

/-- Duration-variance computation (driver lines 352-360): the variance
is emitted whenever both durations are present; the percentage only
when the expected duration is strictly positive. -/
def durationVariancePair (actual expected : Option ℚ) : Option ℚ × Option ℚ :=
  match actual, expected with
  | some a, some e => (some (a - e), if 0 < e then some ((a - e) / e * 100) else none)
  | _, _ => (none, none)

/-- One left-side job row: the fields the driver reads. -/
structure JobsRow where
  business_title : Option String
  posting_duration_days : Option ℚ

/-- One enriched output row (driver lines 337-360): the input row plus
match metadata, promoted payload attributes and variance fields. -/
structure CombinedRow where
  base : JobsRow
  lighthouse_match_title : Option String
  lighthouse_match_score : Option ℚ
  lighthouse_median_posting_duration : Option ℚ
  lighthouse_total_postings : Option ℚ
  lighthouse_median_salary : Option ℚ
  lighthouse_top_skills : Option String
  lighthouse_education_requirements : Option String
  lighthouse_experience_level : Option String
  lighthouse_salary_category : Option String
  lighthouse_posting_intensity : Option ℚ
  duration_variance : Option ℚ
  duration_variance_pct : Option ℚ

/-- Enrichment of one job row (driver lines 333-360): every emitted
lighthouse field is `None` unless a match was recorded; the variance
pair is computed from the actual and matched expected durations. -/
def generateRow (lookup : List (String × LighthouseEntry)) (t : ℚ)
    (row : JobsRow) : CombinedRow :=
  let m := findBestLighthouseMatch row.business_title lookup t
  let dur : Option ℚ := match m.1 with
    | some _ => m.2.2.bind (fun d => d.median_duration)
    | none => none
  { base := row
    lighthouse_match_title := match m.1 with
      | some _ => m.2.2.map (fun d => d.original_title)
      | none => none
    lighthouse_match_score := match m.1 with
      | some _ => some m.2.1
      | none => none
    lighthouse_median_posting_duration := dur
    lighthouse_total_postings := match m.1 with
      | some _ => m.2.2.bind (fun d => d.total_postings)
      | none => none
    lighthouse_median_salary := match m.1 with
      | some _ => m.2.2.bind (fun d => d.median_salary)
      | none => none
    lighthouse_top_skills := match m.1 with
      | some _ => m.2.2.bind (fun d => d.top_skills)
      | none => none
    lighthouse_education_requirements := match m.1 with
      | some _ => m.2.2.bind (fun d => d.education_requirements)
      | none => none
    lighthouse_experience_level := match m.1 with
      | some _ => m.2.2.bind (fun d => d.experience_level)
      | none => none
    lighthouse_salary_category := match m.1 with
      | some _ => m.2.2.bind (fun d => d.salary_category)
      | none => none
    lighthouse_posting_intensity := match m.1 with
      | some _ => m.2.2.bind (fun d => d.posting_intensity)
      | none => none
    duration_variance := (durationVariancePair row.posting_duration_days dur).1
    duration_variance_pct := (durationVariancePair row.posting_duration_days dur).2 }

/-- `generate_posting_duration_dataset` core loop (lines 332-363): one
appended output row per input job row, in input order. -/
def generatePostingDurationDataset (jobs : List JobsRow)
    (lookup : List (String × LighthouseEntry)) (t : ℚ) : List CombinedRow :=
  jobs.foldl (fun acc row => acc ++ [generateRow lookup t row]) []

theorem foldl_append_eq_map {α β : Type} (f : α → β) :
    ∀ (l : List α) (acc : List β),
      l.foldl (fun a x => a ++ [f x]) acc = acc ++ l.map f := by
  intro l
  induction l with
  | nil => intro acc; simp
  | cons x xs ih =>
    intro acc
    rw [List.foldl_cons, ih, List.map_cons]
    simp

/-- C8: the driver emits exactly one enriched record per input job row:
the output is the map of the enrichment over the input, its length
equals the input length, and projecting each output row to its
underlying input row recovers the input list in order. -/
theorem C8_order_preservation (jobs : List JobsRow)
    (lookup : List (String × LighthouseEntry)) (t : ℚ) :
    generatePostingDurationDataset jobs lookup t
      = jobs.map (generateRow lookup t) ∧
    (generatePostingDurationDataset jobs lookup t).length = jobs.length ∧
    (generatePostingDurationDataset jobs lookup t).map
      (fun r => r.base) = jobs := by
  have hmap : generatePostingDurationDataset jobs lookup t
      = jobs.map (generateRow lookup t) := by
    unfold generatePostingDurationDataset
    rw [foldl_append_eq_map]
    rfl
  refine ⟨hmap, ?_, ?_⟩
  · rw [hmap, List.length_map]
  · rw [hmap, List.map_map]
    have : ∀ row : JobsRow,
        (fun r : CombinedRow => r.base) (generateRow lookup t row) = row :=
      fun row => rfl
    calc jobs.map ((fun r : CombinedRow => r.base) ∘ generateRow lookup t)
        = jobs.map id := List.map_congr_left (fun row _ => this row)
      _ = jobs := List.map_id jobs

/-- C2 (amended): for a matched pair with both durations present the
variance `actual - expected` is always emitted — including when the
expected duration is zero — while the percentage is emitted exactly
when the expected duration is strictly positive (so never a division by
zero); both fields are jointly absent exactly when either duration is
missing; and on `actual = 45, expected = 30` the result is
`(15, 50.0)`. -/
theorem C2_variance_calculator (a e : ℚ) (x : Option ℚ) :
    (durationVariancePair (some a) (some e)).1 = some (a - e) ∧
    (durationVariancePair (some a) (some e)).2
      = (if 0 < e then some ((a - e) / e * 100) else none) ∧
    durationVariancePair none x = (none, none) ∧
    durationVariancePair x none = (none, none) ∧
    durationVariancePair (some 45) (some 30) = (some 15, some 50) := by
  refine ⟨rfl, rfl, rfl, ?_, ?_⟩
  · cases x <;> rfl
  · unfold durationVariancePair
    norm_num

/-- C2 counterexample: with `actual = 45, expected = 0` the code emits
`variance = 45` (present) and only the percentage is absent, so the two
fields are not jointly absent when the expected value is zero. -/
theorem C2_counterexample :
    (durationVariancePair (some 45) (some 0)).1 = some 45 ∧
    durationVariancePair (some 45) (some 0) ≠ (none, none) := by
  constructor
  · unfold durationVariancePair
    norm_num
  · unfold durationVariancePair
    simp

/-- C3 (amended): a missing or empty left key, or an empty candidate
collection, always yields an unmatched result, but the emitted score is
absent rather than `0.0` in the payroll pass (all four fields are
`None`); the inner lighthouse scan does return the score `0.0` (with no
matched key and no payload) in those cases. -/
theorem C3_no_match_safety :
    (∀ lookup, findBestMatchWithSalary none lookup = (none, none, none, none)) ∧
    (∀ lookup, findBestMatchWithSalary (some "") lookup
      = (none, none, none, none)) ∧
    (∀ q, findBestMatchWithSalary q [] = (none, none, none, none)) ∧
    (∀ bt t, findBestLighthouseMatch bt [] t = (none, 0, none)) := by
  refine ⟨fun lookup => rfl, fun lookup => rfl, ?_, ?_⟩
  · intro q
    match q with
    | none => rfl
    | some s =>
      by_cases hs : s = ""
      · subst hs; rfl
      · have h1 : findBestMatchWithSalary (some s) []
            = payrollAccept [] (none, 0) := by
          simp [findBestMatchWithSalary, hs]
        rw [h1]
        unfold payrollAccept
        rw [if_neg (not_le.mpr threshold_pos)]
  · intro bt t
    match bt with
    | none => rfl
    | some b =>
      by_cases hb : b = ""
      · subst hb; rfl
      · simp [findBestLighthouseMatch, hb]

/-- C3 counterexample: with an empty candidate collection the payroll
pass emits `best_match_score = None` — the score field is absent, not
`0.0`. -/
theorem C3_counterexample :
    (findBestMatchWithSalary (some "ab") []).2.1 = none ∧
    (findBestMatchWithSalary (some "ab") []).2.1 ≠ some 0 := by
  refine ⟨by decide, by decide⟩

/-! ### Threshold monotonicity -/

/-- The lighthouse scan projected to its key and score components is the
threshold-gated scan over the lookup's keys; the payload rides along. -/
theorem lighthouseScan_proj (q : String) (t : ℚ) :
    ∀ (lookup : List (String × LighthouseEntry))
      (b : Option String × ℚ × Option LighthouseEntry),
      ((lookup.foldl (lighthouseScanStep q t) b).1,
       (lookup.foldl (lighthouseScanStep q t) b).2.1)
        = (lookup.map (fun p => p.1)).foldl (fun s c =>
            if c ≠ "" then
              if s.2 < ratio q c ∧ t ≤ ratio q c then (some c, ratio q c) else s
            else s) (b.1, b.2.1) := by
  intro lookup
  induction lookup with
  | nil => intro b; rfl
  | cons p ps ih =>
    intro b
    rw [List.foldl_cons, List.map_cons, List.foldl_cons, ih]
    have hstep : ((lighthouseScanStep q t b p).1,
        (lighthouseScanStep q t b p).2.1)
        = (if p.1 ≠ "" then
            if (b.1, b.2.1).2 < ratio q p.1 ∧ t ≤ ratio q p.1 then
              (some p.1, ratio q p.1)
            else (b.1, b.2.1)
          else (b.1, b.2.1)) := by
      unfold lighthouseScanStep
      by_cases h1 : p.1 ≠ ""
      · rw [if_pos h1, if_pos h1]
        by_cases h2 : b.2.1 < ratio q p.1 ∧ t ≤ ratio q p.1
        · rw [if_pos h2, if_pos h2]
        · rw [if_neg h2, if_neg h2]
      · rw [if_neg h1, if_neg h1]
    rw [hstep]

theorem scanKey_isSome_iff (q : String) (cands : List String) :
    ((cands.foldl (scanStep q) ((none : Option String), (0 : ℚ))).1).isSome
      = true ↔ 0 < foldMax q 0 cands := by
  rw [scanFold_eq]
  by_cases h : foldMax q 0 cands ≤ 0
  · rw [if_pos h]
    exact iff_of_false (by simp) (not_lt.mpr h)
  · rw [if_neg h]
    have hpos : 0 < foldMax q 0 cands := not_le.mp h
    rcases foldMax_eq_base_or_mem q cands 0 with h0 | ⟨c, hc, he⟩
    · exact absurd h0 (ne_of_gt hpos)
    · have hsome : (cands.find?
          (fun c => ratio q c = foldMax q 0 cands)).isSome = true :=
        List.find?_isSome.mpr ⟨c, hc, decide_eq_true he.symm⟩
      exact iff_of_true hsome hpos

/-- The key tracked by the full lighthouse resolver at a non-falsy title
equals the key of the threshold-gated scan over the keys. -/
theorem lighthouseKey_eq (b : String) (hb : ¬ b = "")
    (lookup : List (String × LighthouseEntry)) (t : ℚ) :
    (findBestLighthouseMatch (some b) lookup t).1
      = ((((lookup.map (fun p => p.1)).filter
            (fun c => !(c == ""))).filter
            (fun c => decide (t ≤ ratio (cleanTitle b) c))).foldl
          (scanStep (cleanTitle b)) ((none : Option String), (0 : ℚ))).1 := by
  have hdef : findBestLighthouseMatch (some b) lookup t
      = lookup.foldl (lighthouseScanStep (cleanTitle b) t) (none, 0, none) := by
    simp [findBestLighthouseMatch, hb]
  rw [hdef]
  have hproj := lighthouseScan_proj (cleanTitle b) t lookup (none, 0, none)
  have hkey := congrArg Prod.fst hproj
  rw [hkey]
  rw [foldl_guard_filter (fun s c =>
      if s.2 < ratio (cleanTitle b) c ∧ t ≤ ratio (cleanTitle b) c then
        (some c, ratio (cleanTitle b) c)
      else s),
    foldl_threshold_filter]

/-- Acceptance of the lighthouse resolver is antitone in the threshold. -/
theorem lighthouseAccepted_mono (lookup : List (String × LighthouseEntry))
    (t1 t2 : ℚ) (h : t1 ≤ t2) (bt : Option String)
    (hacc : (findBestLighthouseMatch bt lookup t2).1.isSome = true) :
    (findBestLighthouseMatch bt lookup t1).1.isSome = true := by
  match bt with
  | none => simp [findBestLighthouseMatch] at hacc
  | some b =>
    by_cases hb : b = ""
    · subst hb
      simp [findBestLighthouseMatch] at hacc
    · rw [lighthouseKey_eq b hb lookup t2] at hacc
      rw [lighthouseKey_eq b hb lookup t1]
      set q := cleanTitle b
      set G := (lookup.map (fun p => p.1)).filter (fun c => !(c == ""))
        with hGdef
      rw [scanKey_isSome_iff] at hacc
      rw [scanKey_isSome_iff]
      rcases foldMax_eq_base_or_mem q
          (G.filter (fun c => decide (t2 ≤ ratio q c))) 0 with h0 | ⟨c, hc, he⟩
      · rw [h0] at hacc
        exact absurd hacc (lt_irrefl 0)
      · have hcf := List.mem_filter.mp hc
        have ht2c : t2 ≤ ratio q c := of_decide_eq_true hcf.2
        have hc1 : c ∈ G.filter (fun c => decide (t1 ≤ ratio q c)) :=
          List.mem_filter.mpr ⟨hcf.1, decide_eq_true (le_trans h ht2c)⟩
        have hle : ratio q c ≤ foldMax q 0
            (G.filter (fun c => decide (t1 ≤ ratio q c))) :=
          foldMax_mem_le q _ 0 c hc1
        exact lt_of_lt_of_le (he ▸ hacc) hle

/-- Count of matched left records in a lighthouse run. -/
def lighthouseMatchedCount (titles : List (Option String))
    (lookup : List (String × LighthouseEntry)) (t : ℚ) : Nat :=
  titles.countP (fun bt => (findBestLighthouseMatch bt lookup t).1.isSome)

/-- Acceptance decision of the global-maximum (payroll-style) strategy at
threshold `t`: a non-falsy key whose best score reaches `t`. -/
def globalMaxAccepted (q : String) (cands : List String) (t : ℚ) : Bool :=
  !(q == "") && decide (t ≤ (cands.foldl
    (fun b c => if c ≠ "" then scanStep q b c else b)
    ((none : Option String), (0 : ℚ))).2)

/-- Count of accepted left records under the global-maximum strategy. -/
def globalMaxMatchedCount (qs : List String) (cands : List String)
    (t : ℚ) : Nat :=
  qs.countP (fun q => globalMaxAccepted q cands t)

/-- C7: raising the threshold never increases the matched count, for
both resolver styles, on fixed inputs and candidate order. -/
theorem C7_threshold_monotonicity (t1 t2 : ℚ) (h : t1 ≤ t2)
    (titles : List (Option String)) (lookup : List (String × LighthouseEntry))
    (qs cands : List String) :
    lighthouseMatchedCount titles lookup t2
      ≤ lighthouseMatchedCount titles lookup t1 ∧
    globalMaxMatchedCount qs cands t2 ≤ globalMaxMatchedCount qs cands t1 := by
  constructor
  · exact List.countP_mono_left
      (fun bt _ hb => lighthouseAccepted_mono lookup t1 t2 h bt hb)
  · apply List.countP_mono_left
    intro q _ hq
    unfold globalMaxAccepted at hq
    unfold globalMaxAccepted
    rcases (Bool.and_eq_true _ _).mp hq with ⟨h1, h2⟩
    exact (Bool.and_eq_true _ _).mpr
      ⟨h1, decide_eq_true (le_trans h (of_decide_eq_true h2))⟩

/-- C7 witness at the two concretely used threshold tiers 0.7 and 0.8. -/
theorem C7_threshold_monotonicity_witness :
    mkRat 7 10 ≤ mkRat 8 10 ∧
    (lighthouseMatchedCount [some "ab"]
        [("ab", ⟨"ab", none, none, none, none, none, none, none, none⟩)]
        (mkRat 8 10)
      ≤ lighthouseMatchedCount [some "ab"]
        [("ab", ⟨"ab", none, none, none, none, none, none, none, none⟩)]
        (mkRat 7 10) ∧
    globalMaxMatchedCount ["ab"] ["ab"] (mkRat 8 10)
      ≤ globalMaxMatchedCount ["ab"] ["ab"] (mkRat 7 10)) :=
  ⟨by decide, C7_threshold_monotonicity _ _ (by decide) _ _ _ _⟩

/-! ### Aggregator: the payroll salary lookup

`calculate_fuzzy_matches_with_payroll` (jobs processor, lines 156-180)
builds a dict keyed by payroll fuzzy string: rows whose key is falsy or
whose `salary_min` or `salary_max` is null are skipped; the remaining
rows append both salaries to the per-key lists; finally each key's
lists are replaced by their arithmetic means.  The insertion-ordered
dict is modelled as an association list with unique keys: `addRow`
appends to an existing entry or inserts a fresh one at the end. -/

/-- One processed payroll row as read by the lookup construction. -/
structure PayrollRow where
  fuzzy_match_string : Option String
  salary_min : Option ℚ
  salary_max : Option ℚ

/-- Row filter of lines 163: a truthy key and both salaries present. -/
def validPayrollRow (r : PayrollRow) : Bool :=
  match r.fuzzy_match_string, r.salary_min, r.salary_max with
  | some s, some _, some _ => !(s == "")
  | _, _, _ => false

/-- Append a salary pair to the key's entry (dict `append` on lines
167-168), inserting a fresh entry for a new key. -/
def addRow (key : String) (mn mx : ℚ) :
    List (String × (List ℚ × List ℚ)) → List (String × (List ℚ × List ℚ))
  | [] => [(key, ([mn], [mx]))]
  | e :: rest =>
    if e.1 = key then (e.1, (e.2.1 ++ [mn], e.2.2 ++ [mx])) :: rest
    else e :: addRow key mn mx rest

/-- One iteration of the row loop (lines 158-168). -/
def payrollStep (acc : List (String × (List ℚ × List ℚ)))
    (r : PayrollRow) : List (String × (List ℚ × List ℚ)) :=
  match r.fuzzy_match_string, r.salary_min, r.salary_max with
  | some s, some mn, some mx => if s ≠ "" then addRow s mn mx acc else acc
  | _, _, _ => acc

/-- The dict of per-key salary lists (lines 157-168). -/
def payrollSalaryLists (rows : List PayrollRow) :
    List (String × (List ℚ × List ℚ)) :=
  rows.foldl payrollStep []

/-- Arithmetic mean (lines 175-176: `sum(..) / len(..)`). -/
def avg (l : List ℚ) : ℚ := l.sum / l.length

/-- The final salary lookup (lines 170-177): each key's lists replaced
by their means. -/
def payrollSalaryLookup (rows : List PayrollRow) : List (String × (ℚ × ℚ)) :=
  (payrollSalaryLists rows).map (fun p => (p.1, (avg p.2.1, avg p.2.2)))

/-- Dict read on an association list. -/
def assocGet (acc : List (String × (List ℚ × List ℚ))) (k : String) :
    Option (List ℚ × List ℚ) :=
  (acc.find? (fun e => e.1 = k)).map (fun e => e.2)

/-- The `salary_min` values of the rows of key `k` that survive the
line-163 filter, in row order. -/
def salaryMinValues (rows : List PayrollRow) (k : String) : List ℚ :=
  rows.filterMap (fun r =>
    match r.fuzzy_match_string, r.salary_min, r.salary_max with
    | some s, some mn, some _ => if s = k ∧ s ≠ "" then some mn else none
    | _, _, _ => none)

/-- The `salary_max` values of the rows of key `k` that survive the
line-163 filter, in row order. -/
def salaryMaxValues (rows : List PayrollRow) (k : String) : List ℚ :=
  rows.filterMap (fun r =>
    match r.fuzzy_match_string, r.salary_min, r.salary_max with
    | some s, some _, some mx => if s = k ∧ s ≠ "" then some mx else none
    | _, _, _ => none)

/-- Combining an existing entry with later contributions. -/
def combineVals (o : Option (List ℚ × List ℚ)) (v : List ℚ × List ℚ) :
    Option (List ℚ × List ℚ) :=
  match o with
  | none => if v.1.isEmpty then none else some v
  | some w => some (w.1 ++ v.1, w.2 ++ v.2)

theorem assocGet_cons_of_pos {e : String × (List ℚ × List ℚ)}
    {l : List (String × (List ℚ × List ℚ))} {k : String} (h : e.1 = k) :
    assocGet (e :: l) k = some e.2 := by
  unfold assocGet
  rw [List.find?_cons_of_pos _ (by simp [h])]
  rfl

theorem assocGet_cons_of_neg {e : String × (List ℚ × List ℚ)}
    {l : List (String × (List ℚ × List ℚ))} {k : String} (h : ¬ e.1 = k) :
    assocGet (e :: l) k = assocGet l k := by
  unfold assocGet
  rw [List.find?_cons_of_neg _ (by simp [h])]

theorem addRow_cons (key : String) (mn mx : ℚ)
    (e : String × (List ℚ × List ℚ)) (rest : List (String × (List ℚ × List ℚ))) :
    addRow key mn mx (e :: rest)
      = if e.1 = key then (e.1, (e.2.1 ++ [mn], e.2.2 ++ [mx])) :: rest
        else e :: addRow key mn mx rest := rfl

theorem assocGet_addRow_self (key : String) (mn mx : ℚ) :
    ∀ acc, assocGet (addRow key mn mx acc) key
      = some (match assocGet acc key with
          | none => ([mn], [mx])
          | some w => (w.1 ++ [mn], w.2 ++ [mx])) := by
  intro acc
  induction acc with
  | nil =>
    rw [show addRow key mn mx [] = [(key, ([mn], [mx]))] from rfl,
      assocGet_cons_of_pos rfl]
    rfl
  | cons e es ih =>
    by_cases he : e.1 = key
    · rw [addRow_cons, if_pos he,
        assocGet_cons_of_pos (e := (e.1, (e.2.1 ++ [mn], e.2.2 ++ [mx]))) he,
        assocGet_cons_of_pos he]
    · rw [addRow_cons, if_neg he,
        assocGet_cons_of_neg he, assocGet_cons_of_neg he]
      exact ih

theorem assocGet_addRow_other (key k : String) (hne : ¬ k = key)
    (mn mx : ℚ) : ∀ acc, assocGet (addRow key mn mx acc) k = assocGet acc k := by
  have hne' : ¬ key = k := fun h => hne h.symm
  intro acc
  induction acc with
  | nil =>
    rw [show addRow key mn mx [] = [(key, ([mn], [mx]))] from rfl,
      assocGet_cons_of_neg hne']
  | cons e es ih =>
    by_cases he : e.1 = key
    · have hek : ¬ e.1 = k := by rw [he]; exact hne'
      rw [addRow_cons, if_pos he,
        assocGet_cons_of_neg (e := (e.1, (e.2.1 ++ [mn], e.2.2 ++ [mx]))) hek,
        assocGet_cons_of_neg hek]
    · rw [addRow_cons, if_neg he]
      by_cases hek : e.1 = k
      · rw [assocGet_cons_of_pos hek, assocGet_cons_of_pos hek]
      · rw [assocGet_cons_of_neg hek, assocGet_cons_of_neg hek]
        exact ih

theorem combineVals_push (o : Option (List ℚ × List ℚ)) (mn mx : ℚ)
    (v : List ℚ × List ℚ) :
    combineVals (some (match o with
        | none => ([mn], [mx])
        | some w => (w.1 ++ [mn], w.2 ++ [mx]))) v
      = combineVals o (mn :: v.1, mx :: v.2) := by
  cases o with
  | none => rfl
  | some w =>
    show some ((w.1 ++ [mn]) ++ v.1, (w.2 ++ [mx]) ++ v.2)
      = some (w.1 ++ (mn :: v.1), w.2 ++ (mx :: v.2))
    simp

theorem payrollFold_spec (k : String) :
    ∀ (rows : List PayrollRow) (acc : List (String × (List ℚ × List ℚ))),
      assocGet (rows.foldl payrollStep acc) k
        = combineVals (assocGet acc k)
            (salaryMinValues rows k, salaryMaxValues rows k) := by
  intro rows
  induction rows with
  | nil =>
    intro acc
    show assocGet acc k = combineVals (assocGet acc k) ([], [])
    cases h : assocGet acc k with
    | none => rfl
    | some w =>
      show some w = some (w.1 ++ [], w.2 ++ [])
      simp
  | cons r rs ih =>
    intro acc
    rw [List.foldl_cons]
    cases hf : r.fuzzy_match_string with
    | none =>
      have hstep : payrollStep acc r = acc := by
        unfold payrollStep; rw [hf]
      have hmn : salaryMinValues (r :: rs) k = salaryMinValues rs k := by
        unfold salaryMinValues
        rw [List.filterMap_cons]
        simp [hf, salaryMinValues]
      have hmx : salaryMaxValues (r :: rs) k = salaryMaxValues rs k := by
        unfold salaryMaxValues
        rw [List.filterMap_cons]
        simp [hf, salaryMaxValues]
      rw [hstep, ih, hmn, hmx]
    | some s =>
      cases hn : r.salary_min with
      | none =>
        have hstep : payrollStep acc r = acc := by
          unfold payrollStep; rw [hf, hn]
        have hmn : salaryMinValues (r :: rs) k = salaryMinValues rs k := by
          unfold salaryMinValues
          rw [List.filterMap_cons]
          simp [hf, hn, salaryMinValues]
        have hmx : salaryMaxValues (r :: rs) k = salaryMaxValues rs k := by
          unfold salaryMaxValues
          rw [List.filterMap_cons]
          simp [hf, hn, salaryMaxValues]
        rw [hstep, ih, hmn, hmx]
      | some mn =>
        cases hx : r.salary_max with
        | none =>
          have hstep : payrollStep acc r = acc := by
            unfold payrollStep; rw [hf, hn, hx]
          have hmn : salaryMinValues (r :: rs) k = salaryMinValues rs k := by
            unfold salaryMinValues
            rw [List.filterMap_cons]
            simp [hf, hn, hx, salaryMinValues]
          have hmx : salaryMaxValues (r :: rs) k = salaryMaxValues rs k := by
            unfold salaryMaxValues
            rw [List.filterMap_cons]
            simp [hf, hn, hx, salaryMaxValues]
          rw [hstep, ih, hmn, hmx]
        | some mx =>
          by_cases hs : s = ""
          · have hstep : payrollStep acc r = acc := by
              unfold payrollStep
              rw [hf, hn, hx]
              simp [hs]
            have hcond : ¬ (s = k ∧ s ≠ "") := fun h => h.2 hs
            have hmn : salaryMinValues (r :: rs) k = salaryMinValues rs k := by
              unfold salaryMinValues
              rw [List.filterMap_cons]
              simp [hf, hn, hx, hcond, salaryMinValues]
            have hmx : salaryMaxValues (r :: rs) k = salaryMaxValues rs k := by
              unfold salaryMaxValues
              rw [List.filterMap_cons]
              simp [hf, hn, hx, hcond, salaryMaxValues]
            rw [hstep, ih, hmn, hmx]
          · have hstep : payrollStep acc r = addRow s mn mx acc := by
              unfold payrollStep
              rw [hf, hn, hx]
              simp [hs]
            by_cases hk : s = k
            · subst hk
              have hcond : s = s ∧ s ≠ "" := ⟨rfl, hs⟩
              have hmn : salaryMinValues (r :: rs) s
                  = mn :: salaryMinValues rs s := by
                unfold salaryMinValues
                rw [List.filterMap_cons]
                simp [hf, hn, hx, hs, salaryMinValues]
              have hmx : salaryMaxValues (r :: rs) s
                  = mx :: salaryMaxValues rs s := by
                unfold salaryMaxValues
                rw [List.filterMap_cons]
                simp [hf, hn, hx, hs, salaryMaxValues]
              rw [hstep, ih, assocGet_addRow_self, hmn, hmx,
                combineVals_push]
            · have hcond : ¬ (s = k ∧ s ≠ "") := fun h => hk h.1
              have hmn : salaryMinValues (r :: rs) k
                  = salaryMinValues rs k := by
                unfold salaryMinValues
                rw [List.filterMap_cons]
                simp [hf, hn, hx, hcond, salaryMinValues]
              have hmx : salaryMaxValues (r :: rs) k
                  = salaryMaxValues rs k := by
                unfold salaryMaxValues
                rw [List.filterMap_cons]
                simp [hf, hn, hx, hcond, salaryMaxValues]
              rw [hstep, ih, assocGet_addRow_other s k
                (fun h => hk h.symm) mn mx, hmn, hmx]

theorem payrollLists_filter_invalid :
    ∀ (rows : List PayrollRow) (acc : List (String × (List ℚ × List ℚ))),
      rows.foldl payrollStep acc
        = (rows.filter validPayrollRow).foldl payrollStep acc := by
  intro rows
  induction rows with
  | nil => intro acc; rfl
  | cons r rs ih =>
    intro acc
    by_cases hv : validPayrollRow r = true
    · rw [List.foldl_cons, List.filter_cons_of_pos hv, List.foldl_cons]
      exact ih (payrollStep acc r)
    · have hstep : payrollStep acc r = acc := by
        unfold payrollStep
        unfold validPayrollRow at hv
        cases hf : r.fuzzy_match_string with
        | none => rfl
        | some s =>
          cases hn : r.salary_min with
          | none => rfl
          | some mn =>
            cases hx : r.salary_max with
            | none => rfl
            | some mx =>
              rw [hf, hn, hx] at hv
              have hs : s = "" := by
                by_cases h : s = ""
                · exact h
                · exact absurd (by simp [h]) hv
              simp [hs]
      rw [List.foldl_cons, List.filter_cons_of_neg (by simpa using hv), hstep]
      exact ih acc

/-- Four concrete payroll rows: two valid rows sharing a key, one with a
null key, one with a null salary. -/
def samplePayrollRows : List PayrollRow :=
  [⟨some "dept_x_clerk", some (mkRat 30000 1), some (mkRat 50000 1)⟩,
   ⟨none, some (mkRat 1 1), some (mkRat 2 1)⟩,
   ⟨some "dept_x_clerk", some (mkRat 40000 1), some (mkRat 60000 1)⟩,
   ⟨some "dept_x_clerk", none, some (mkRat 9 1)⟩]

/-- C10: the payroll aggregation is an arithmetic mean, not a min/max:
rows with a falsy key or a missing salary bound are excluded from the
lookup entirely; each key's entry holds exactly the `salary_min` and
`salary_max` values of its surviving rows in row order; the emitted
lookup carries the arithmetic means of those lists; and on two rows
with minima 30000 and 40000 (maxima 50000 and 60000) the lookup holds
`(35000, 55000)` — the means — which differ from the group minimum
30000 and the group maximum 60000. -/
theorem C10_salary_aggregation_mean :
    (∀ rows : List PayrollRow, payrollSalaryLists rows
        = payrollSalaryLists (rows.filter validPayrollRow)) ∧
    (∀ (rows : List PayrollRow) (k : String),
      assocGet (payrollSalaryLists rows) k
        = if (salaryMinValues rows k).isEmpty then none
          else some (salaryMinValues rows k, salaryMaxValues rows k)) ∧
    (∀ rows : List PayrollRow, payrollSalaryLookup rows
        = (payrollSalaryLists rows).map
            (fun p => (p.1, (avg p.2.1, avg p.2.2)))) ∧
    payrollSalaryLookup samplePayrollRows
      = [("dept_x_clerk", (mkRat 35000 1, mkRat 55000 1))] ∧
    mkRat 35000 1 ≠ mkRat 30000 1 ∧ mkRat 55000 1 ≠ mkRat 60000 1 := by
  refine ⟨fun rows => payrollLists_filter_invalid rows [],
    fun rows k => ?_, fun rows => rfl, ?_, by decide, by decide⟩
  · have h := payrollFold_spec k rows []
    unfold payrollSalaryLists
    rw [h]
    rfl
  · have hlists : payrollSalaryLists samplePayrollRows
        = [("dept_x_clerk",
            ([mkRat 30000 1, mkRat 40000 1], [mkRat 50000 1, mkRat 60000 1]))] := by
      decide
    unfold payrollSalaryLookup
    rw [hlists]
    have hmn : avg [mkRat 30000 1, mkRat 40000 1] = mkRat 35000 1 := by
      simp [avg, Rat.mkRat_eq_div]
      norm_num
    have hmx : avg [mkRat 50000 1, mkRat 60000 1] = mkRat 55000 1 := by
      simp [avg, Rat.mkRat_eq_div]
      norm_num
    rw [List.map_cons, List.map_nil, hmn, hmx]

end NycAudit
